import Mathlib

/-!
Verification development for the rune compiler (crates/rune/src/compiler.rs)
and the runestick tuple conversion (crates/runestick/src/tuple.rs).

The definitions below are a shallow embedding of the Rust source:

* `Inst` mirrors the `st::Inst` variants that `compiler.rs` emits.
* `Assembly` mirrors `st::unit::Assembly` (append-only instruction buffer,
  fresh labels, label commitment); that type is not part of the sources, so
  its behaviour is modelled from the specification of labels (exactly one
  commit per label, dangling labels are link errors).
* `Locals`, `Local`, `Loop` mirror the bookkeeping structs at the bottom of
  `compiler.rs`.
* `Enc` mirrors the `Encoder` struct; the `encode*` functions translate the
  `encode_*` methods arm by arm.  Source spans are modelled as `Nat` and only
  kept where they influence behaviour (the `references_at` lists); error
  payloads that consist purely of spans are dropped.
* Hashes (`st::Hash`, not in the sources) are modelled as the item path they
  are derived from, which the spec describes as a stable injective function
  of the path.
-/

/-- Decidable equality for `Except`, used to settle concrete runs of the
encoder by `decide`. -/
instance exceptDecEq {e a : Type} [DecidableEq e] [DecidableEq a] :
    DecidableEq (Except e a) := fun x y =>
  match x, y with
  | .ok u, .ok v =>
      if h : u = v then isTrue (congrArg Except.ok h)
      else isFalse (fun hh => h (Except.ok.inj hh))
  | .error u, .error v =>
      if h : u = v then isTrue (congrArg Except.error h)
      else isFalse (fun hh => h (Except.error.inj hh))
  | .ok _, .error _ => isFalse (fun hh => Except.noConfusion hh)
  | .error _, .ok _ => isFalse (fun hh => Except.noConfusion hh)

/-- Spans are opaque identifiers in this model. -/
abbrev Span := Nat

/-- The compile error kinds of `CompileError` (error payloads that are only
source spans are dropped from the model). -/
inductive CompileError where
  | missingLocal (name : String)
  | variableConflict (name : String)
  | unsupportedAssignExpr
  | unsupportedRef
  | unsupportedUnaryOp
  | unsupportedBinaryOp
  | breakOutsideOfLoop
  | breakDoesNotProduceValue
  | returnLocalReferences
  | internal (reason : String)
  deriving DecidableEq, Repr

/-- Item hashes, modelled as the canonical item path they hash. -/
abbrev ItemHash := List String

/-- The subset of `st::Inst` emitted by `compiler.rs`.  Jump instructions
carry the (unresolved) label they target. -/
inductive Inst where
  | returnUnit
  | ret
  | pop
  | popN (count : Nat)
  | clean (count : Nat)
  | unit
  | bool (value : Bool)
  | integer (number : Int)
  | float (number : Int)
  | char (c : Char)
  | string (slot : Nat)
  | replace (offset : Nat)
  | copy (offset : Nat)
  | ptr (offset : Nat)
  | deref
  | replaceDeref
  | notInst
  | add | sub | div | mul
  | eq | neq | lt | gt | lte | gte
  | isType
  | indexGet
  | indexSet
  | array (count : Nat)
  | object (count : Nat)
  | call (hash : ItemHash) (args : Nat)
  | callInstance (hash : ItemHash) (args : Nat)
  | typeInst (hash : ItemHash)
  | jump (label : Nat)
  | jumpIf (label : Nat)
  | jumpIfNot (label : Nat)
  deriving DecidableEq, Repr

/-- `st::unit::Assembly`: an append-only instruction buffer plus a supply of
fresh labels and the list of committed labels (label id paired with the
instruction index it was committed at). -/
structure Assembly where
  insts : List Inst
  nextLabel : Nat
  committed : List (Nat × Nat)
  deriving DecidableEq, Repr

/-- A locally declared variable (`Local` in `compiler.rs`); the name is the
key it is stored under, the token is dropped. -/
structure Local where
  offset : Nat
  referencesAt : List Span
  deriving DecidableEq, Repr

/-- The `Locals` struct of `compiler.rs`: a map from names to locals (here an
association list whose head shadows later entries) plus the variable count. -/
structure Locals where
  locals : List (String × Local)
  varCount : Nat
  deriving DecidableEq, Repr

/-- `Locals::new`. -/
def Locals.new : Locals := ⟨[], 0⟩

/-- Look up a local by name (`Locals::get`). -/
def Locals.get (l : Locals) (name : String) : Option Local :=
  l.locals.lookup name

/-- `Locals::new_local`: insert a new local at offset `var_count`, increment
the count, and fail if the name was already declared. -/
def Locals.newLocal (l : Locals) (name : String) (referencesAt : List Span) :
    Except CompileError Locals :=
  if (l.locals.lookup name).isSome then
    .error (.variableConflict name)
  else
    .ok ⟨(name, ⟨l.varCount, referencesAt⟩) :: l.locals, l.varCount + 1⟩

/-- `Locals::decl_var`: if the name is already declared return its offset
(`Err(offset)` in the source, modelled as `Except.error`); otherwise insert a
fresh local at offset `var_count` and increment the count. -/
def Locals.declVar (l : Locals) (name : String) (referencesAt : List Span) :
    Except Nat Locals :=
  match l.locals.lookup name with
  | some old => .error old.offset
  | none =>
      .ok ⟨(name, ⟨l.varCount, referencesAt⟩) :: l.locals, l.varCount + 1⟩

/-- Extend the `references_at` list of the named local (the `get_mut` /
`extend` step of `encode_assign`); returns the local's offset and the updated
map, or `none` when the name is missing. -/
def extendLocalRefs :
    List (String × Local) → String → List Span →
      Option (Nat × List (String × Local))
  | [], _, _ => none
  | (n, l) :: rest, name, refs =>
      if n = name then
        some (l.offset, (n, { l with referencesAt := l.referencesAt ++ refs }) :: rest)
      else
        match extendLocalRefs rest name refs with
        | some (off, rest₂) => some (off, (n, l) :: rest₂)
        | none => none

/-- The per-loop record (`Loop` in `compiler.rs`). -/
structure LoopRec where
  endLabel : Nat
  varCount : Nat
  deriving DecidableEq, Repr

/-- The parts of `st::Unit` the compiler touches: the static string pool and
the import table. -/
structure UnitSt where
  staticStrings : List String
  imports : List (String × ItemHash)
  deriving DecidableEq, Repr

/-- `st::Unit::static_string`: intern a string in the pool and return its
slot. -/
def UnitSt.staticString (u : UnitSt) (s : String) : Nat × UnitSt :=
  match u.staticStrings.indexOf? s with
  | some i => (i, u)
  | none => (u.staticStrings.length, { u with staticStrings := u.staticStrings ++ [s] })

/-- `st::Unit::lookup_import_by_name`. -/
def UnitSt.lookupImport (u : UnitSt) (name : String) : Option ItemHash :=
  u.imports.lookup name

/-- The `Encoder` struct (the `current_block` span, used only in error
payloads, is dropped). -/
structure Enc where
  unit : UnitSt
  asm : Assembly
  parents : List Locals
  locals : Locals
  loops : List LoopRec
  referencesAt : List Span
  deriving DecidableEq, Repr

/-- The encoder state a fresh function starts from. -/
def Enc.init : Enc :=
  ⟨⟨[], []⟩, ⟨[], 0, []⟩, [], Locals.new, [], []⟩

/-- Append one instruction (`Assembly::push`). -/
def Enc.push (s : Enc) (i : Inst) : Enc :=
  { s with asm := { s.asm with insts := s.asm.insts ++ [i] } }

/-- Create a fresh label (`Assembly::new_label`). -/
def Enc.newLabel (s : Enc) : Nat × Enc :=
  (s.asm.nextLabel, { s with asm := { s.asm with nextLabel := s.asm.nextLabel + 1 } })

/-- Commit a label at the current instruction index (`Assembly::label`);
committing twice is an error. -/
def Enc.commitLabel (s : Enc) (label : Nat) : Except CompileError Enc :=
  if (s.asm.committed.lookup label).isSome then
    .error (.internal "label already committed")
  else
    .ok { s with asm :=
            { s.asm with committed := (label, s.asm.insts.length) :: s.asm.committed } }

/-- The instructions `Encoder::pop_locals` emits for a variable count. -/
def popLocalsInsts : Nat → List Inst
  | 0 => []
  | 1 => [.pop]
  | count => [.popN count]

/-- The instructions `Encoder::clean_up_locals` emits for a variable count. -/
def cleanUpLocalsInsts : Nat → List Inst
  | 0 => []
  | count => [.clean count]

/-- `Encoder::pop_locals`. -/
def Enc.popLocals (s : Enc) (varCount : Nat) : Enc :=
  { s with asm := { s.asm with insts := s.asm.insts ++ popLocalsInsts varCount } }

/-- `Encoder::clean_up_locals`. -/
def Enc.cleanUpLocals (s : Enc) (varCount : Nat) : Enc :=
  { s with asm := { s.asm with insts := s.asm.insts ++ cleanUpLocalsInsts varCount } }

/-- Number literals (`ast::Number`); float payloads are opaque in this
model. -/
inductive Number where
  | integer (n : Int)
  | float (n : Int)
  deriving DecidableEq, Repr

/-- Unary operators (`ast::UnaryOp`): the three the compiler supports plus a
representative unsupported operator. -/
inductive UnaryOp where
  | refOp
  | notOp
  | derefOp
  | negOp
  deriving DecidableEq, Repr

/-- Binary operators (`ast::BinOp`), as matched by `encode_expr_binary`;
`rem` stands for the operators that fall into the unsupported arm. -/
inductive BinOp where
  | assign
  | add | sub | div | mul
  | eq | neq | lt | gt | lte | gte
  | isTest
  | rem
  deriving DecidableEq, Repr

mutual

/-- Expressions (`ast::Expr`), with exactly the variants `encode_expr`
dispatches on.  Identifiers and literals carry their resolved payloads. -/
inductive Expr where
  | exprWhile (condition : Expr) (body : Block)
  | exprLet (name : String) (expr : Expr)
  | indexSet (target : Expr) (index : Expr) (value : Expr)
  | exprGroup (expr : Expr)
  | ident (name : String)
  | path (first : String) (rest : List String)
  | callFn (first : String) (rest : List String) (args : List Expr)
  | callInstanceFn (instExpr : Expr) (name : String) (args : List Expr)
  | exprUnary (op : UnaryOp) (span : Span) (expr : Expr)
  | exprBinary (lhs : Expr) (op : BinOp) (rhs : Expr)
  | exprIf (condition : Expr) (block : Block) (elseIfs : List ElseIfBranch)
      (elseBlock : Option Block)
  | unitLiteral
  | boolLiteral (value : Bool)
  | numberLiteral (number : Number)
  | arrayLiteral (items : List Expr)
  | objectLiteral (items : List (String × Expr))
  | charLiteral (c : Char)
  | stringLiteral (s : String)
  | indexGet (target : Expr) (index : Expr)
  | exprBreak

/-- Blocks (`ast::Block`): terminated expressions plus an optional trailing
expression. -/
inductive Block where
  | mk (exprs : List Expr) (trailing : Option Expr)

/-- One `else if cond { block }` branch of an if expression. -/
inductive ElseIfBranch where
  | mk (condition : Expr) (block : Block)

end

/-- The condition of an `ElseIfBranch`. -/
def ElseIfBranch.condition : ElseIfBranch → Expr
  | .mk c _ => c

/-- The block of an `ElseIfBranch`. -/
def ElseIfBranch.block : ElseIfBranch → Block
  | .mk _ b => b

/-- `ArrayLiteral::is_all_literal`.  Modelled from the spec: the `ast` module
is not among the sources; the spec says constant literals are elided when no
value is needed, so an array literal is "all literal" when every item is a
literal. -/
def Expr.isLiteral : Expr → Bool
  | .unitLiteral | .boolLiteral _ | .numberLiteral _
  | .charLiteral _ | .stringLiteral _ => true
  | _ => false

/-- Whether every item of an array literal is a literal. -/
def isAllLiteral (items : List Expr) : Bool :=
  items.all Expr.isLiteral

/-- `encode_string_literal`: elided when no value is needed, otherwise the
string is interned and a `String` push is emitted. -/
def encodeStringLit (str : String) (needsValue : Bool) (s : Enc) :
    Except CompileError Enc :=
  if !needsValue then .ok s
  else
    let (slot, u) := s.unit.staticString str
    .ok (({ s with unit := u }).push (.string slot))

/-- `encode_ident`: copy a local (extending the taken-reference list), fall
back to imported types, otherwise fail with `MissingLocal`. -/
def encodeIdent (name : String) (needsValue : Bool) (s : Enc) :
    Except CompileError Enc :=
  if !needsValue then .ok s
  else
    match s.locals.get name with
    | some lv =>
        .ok (({ s with referencesAt := s.referencesAt ++ lv.referencesAt }).push
          (.copy lv.offset))
    | none =>
        match s.unit.lookupImport name with
        | some path => .ok (s.push (.typeInst path))
        | none => .error (.missingLocal name)

/-- `encode_ref`: `&x` records the span in `references_at` and emits `Ptr`;
any other operand is `UnsupportedRef`. -/
def encodeRef (e : Expr) (span : Span) (s : Enc) : Except CompileError Enc :=
  match e with
  | .ident name =>
      match s.locals.get name with
      | some lv =>
          .ok (({ s with referencesAt := s.referencesAt ++ [span] }).push
            (.ptr lv.offset))
      | none => .error (.missingLocal name)
  | _ => .error .unsupportedRef

/-- `encode_type`: push a type hash for a path. -/
def encodeType (first : String) (rest : List String) (needsValue : Bool) (s : Enc) :
    Except CompileError Enc :=
  if !needsValue then .ok s
  else .ok (s.push (.typeInst (first :: rest)))

/-- `decode_call_dest`: resolve the callee path against the import table. -/
def decodeCallDest (first : String) (rest : List String) (s : Enc) : ItemHash :=
  (match s.unit.lookupImport first with
   | some path => path
   | none => [first]) ++ rest

/-- `encode_break`: reject value-producing breaks, then breaks outside every
loop; otherwise pop the extra locals and jump to the innermost loop's end
label. -/
def encodeBreak (needsValue : Bool) (s : Enc) : Except CompileError Enc :=
  if needsValue then .error .breakDoesNotProduceValue
  else
    match s.loops with
    | [] => .error .breakOutsideOfLoop
    | lastLoop :: _ =>
        if s.locals.varCount < lastLoop.varCount then
          .error (.internal "var count should be larger")
        else
          .ok ((s.popLocals (s.locals.varCount - lastLoop.varCount)).push
            (.jump lastLoop.endLabel))

/-- `encode_assign_target`: identifiers and (nested) dereferences are valid
assignment targets; everything else is `UnsupportedAssignExpr`. -/
def encodeAssignTarget (e : Expr) (firstLevel : Bool) (s : Enc) :
    Except CompileError Enc :=
  match e with
  | .ident name => encodeIdent name true s
  | .exprUnary .derefOp _ inner =>
      match encodeAssignTarget inner false s with
      | .error er => .error er
      | .ok s => .ok (if firstLevel then s else s.push .deref)
  | _ => .error .unsupportedAssignExpr

/-- The instruction `encode_expr_binary` emits for a supported operator
(`none` for `Assign`, which is intercepted earlier, and for unsupported
operators). -/
def binOpInst : BinOp → Option Inst
  | .add => some .add
  | .sub => some .sub
  | .div => some .div
  | .mul => some .mul
  | .eq => some .eq
  | .neq => some .neq
  | .lt => some .lt
  | .gt => some .gt
  | .lte => some .lte
  | .gte => some .gte
  | .isTest => some .isType
  | .assign => none
  | .rem => none

/-- The signatures of the mutually recursive `encode_*` methods.  The
recursion of the Rust methods is modelled with a fuel index (see
`encoders`): each level of `EncFuns` may call the previous level, and with
enough fuel the fuel never runs out, so every theorem below quantifies over
or instantiates the fuel. -/
structure EncFuns where
  expr : Expr → Bool → Enc → Except CompileError Enc
  block : Block → Bool → Enc → Except CompileError Enc
  stmts : List Expr → Enc → Except CompileError Enc
  listRev : List Expr → Enc → Except CompileError Enc
  pairsRev : List (String × Expr) → Enc → Except CompileError Enc
  elseIfConds : List ElseIfBranch → Bool → Enc → Except CompileError (Enc × List Nat)

/-- `Encoder::encode_expr`, with each `encode_*` helper inlined at its call
site (the Rust dispatches to one method per variant; the bodies below are the
bodies of those methods).  Recursive calls go through `prev`. -/
def encodeExprStep (prev : EncFuns) (e : Expr) (needsValue : Bool) (s : Enc) :
    Except CompileError Enc :=
  match e with
  | .exprWhile condition body =>
      let (startLabel, s) := s.newLabel
      let (endLabel, s) := s.newLabel
      let loopCount := s.loops.length
      let s := { s with loops := ⟨endLabel, s.locals.varCount⟩ :: s.loops }
      match s.commitLabel startLabel with
      | .error er => .error er
      | .ok s =>
        match prev.expr condition true s with
        | .error er => .error er
        | .ok s =>
          let s := s.push (.jumpIfNot endLabel)
          match prev.block body false s with
          | .error er => .error er
          | .ok s =>
            let s := s.push (.jump startLabel)
            match s.commitLabel endLabel with
            | .error er => .error er
            | .ok s =>
              let s := if needsValue then s.push .unit else s
              match s.loops with
              | [] => .error (.internal "missing parent loop")
              | _ :: restLoops =>
                  let s := { s with loops := restLoops }
                  if loopCount ≠ s.loops.length then
                    .error (.internal "loop count mismatch on return")
                  else .ok s
  | .exprLet name expr =>
      let s := { s with referencesAt := [] }
      match prev.expr expr true s with
      | .error er => .error er
      | .ok s =>
        match s.locals.declVar name s.referencesAt with
        | .error offset =>
            let s := s.push (.replace offset)
            .ok (if needsValue then s.push .unit else s)
        | .ok newLocals =>
            let s := { s with locals := newLocals }
            .ok (if needsValue then s.push .unit else s)
  | .indexSet target index value =>
      match prev.expr value true s with
      | .error er => .error er
      | .ok s =>
        match prev.expr index true s with
        | .error er => .error er
        | .ok s =>
          match prev.expr target true s with
          | .error er => .error er
          | .ok s =>
            let s := s.push .indexSet
            .ok (if needsValue then s.push .unit else s)
  | .exprGroup expr => prev.expr expr needsValue s
  | .ident name => encodeIdent name needsValue s
  | .path first rest => encodeType first rest needsValue s
  | .callFn first rest args =>
      match prev.listRev args s with
      | .error er => .error er
      | .ok s =>
        let s := s.push (.call (decodeCallDest first rest s) args.length)
        .ok (if needsValue then s else s.push .pop)
  | .callInstanceFn instExpr name args =>
      match prev.listRev args s with
      | .error er => .error er
      | .ok s =>
        match prev.expr instExpr true s with
        | .error er => .error er
        | .ok s =>
          let s := s.push (.callInstance [name] args.length)
          .ok (if needsValue then s else s.push .pop)
  | .exprUnary op span expr =>
      match op with
      | .refOp => encodeRef expr span s
      | _ =>
        match prev.expr expr true s with
        | .error er => .error er
        | .ok s =>
          match op with
          | .notOp =>
              let s := s.push .notInst
              .ok (if needsValue then s else s.push .pop)
          | .derefOp =>
              let s := s.push .deref
              .ok (if needsValue then s else s.push .pop)
          | _ => .error .unsupportedUnaryOp
  | .exprBinary lhs op rhs =>
      match op with
      | .assign =>
          match lhs with
          | .ident name =>
              let s := { s with referencesAt := [] }
              match prev.expr rhs true s with
              | .error er => .error er
              | .ok s =>
                match extendLocalRefs s.locals.locals name s.referencesAt with
                | none => .error (.missingLocal name)
                | some (offset, newMap) =>
                    let s := { s with locals := { s.locals with locals := newMap } }
                    let s := s.push (.replace offset)
                    .ok (if needsValue then s.push .unit else s)
          | _ =>
              match prev.expr rhs true s with
              | .error er => .error er
              | .ok s =>
                match encodeAssignTarget lhs true s with
                | .error er => .error er
                | .ok s =>
                    let s := s.push .replaceDeref
                    .ok (if needsValue then s.push .unit else s)
      | _ =>
          match prev.expr lhs true s with
          | .error er => .error er
          | .ok s =>
            match prev.expr rhs true s with
            | .error er => .error er
            | .ok s =>
              match binOpInst op with
              | some i =>
                  let s := s.push i
                  .ok (if needsValue then s else s.push .pop)
              | none => .error .unsupportedBinaryOp
  | .exprIf condition block elseIfs elseBlock =>
      let (thenLabel, s) := s.newLabel
      let (endLabel, s) := s.newLabel
      match prev.expr condition true s with
      | .error er => .error er
      | .ok s =>
        let s := s.push (.jumpIf thenLabel)
        match prev.elseIfConds elseIfs needsValue s with
        | .error er => .error er
        | .ok (s, branchLabels) =>
          match
            (match elseBlock with
             | some fallback => prev.block fallback needsValue s
             | none => .ok (if needsValue then s.push .unit else s) :
              Except CompileError Enc) with
          | .error er => .error er
          | .ok s =>
            let s := s.push (.jump endLabel)
            match s.commitLabel thenLabel with
            | .error er => .error er
            | .ok s =>
              match prev.block block needsValue s with
              | .error er => .error er
              | .ok s =>
                let s := if elseIfs.isEmpty then s else s.push (.jump endLabel)
                match
                  (match elseIfs, branchLabels with
                   | .mk _ branchBlock :: restBranches, label :: restLabels =>
                       match s.commitLabel label with
                       | .error er => .error er
                       | .ok s =>
                         match prev.block branchBlock needsValue s with
                         | .error er => .error er
                         | .ok s =>
                             .ok (if restBranches.isEmpty || restLabels.isEmpty then s
                                  else s.push (.jump endLabel))
                   | _, _ => .ok s :
                   Except CompileError Enc) with
                | .error er => .error er
                | .ok s => s.commitLabel endLabel
  | .unitLiteral => .ok (s.push .unit)
  | .boolLiteral value => .ok (s.push (.bool value))
  | .numberLiteral number =>
      if !needsValue then .ok s
      else
        match number with
        | .float n => .ok (s.push (.float n))
        | .integer n => .ok (s.push (.integer n))
  | .arrayLiteral items =>
      if !needsValue && isAllLiteral items then .ok s
      else
        match prev.listRev items s with
        | .error er => .error er
        | .ok s => .ok (s.push (.array items.length))
  | .objectLiteral items =>
      if !needsValue then .ok s
      else
        match prev.pairsRev items s with
        | .error er => .error er
        | .ok s => .ok (s.push (.object items.length))
  | .charLiteral c => if !needsValue then .ok s else .ok (s.push (.char c))
  | .stringLiteral str => encodeStringLit str needsValue s
  | .indexGet target index =>
      match prev.expr index true s with
      | .error er => .error er
      | .ok s =>
        match prev.expr target true s with
        | .error er => .error er
        | .ok s =>
          let s := s.push .indexGet
          .ok (if needsValue then s else s.push .pop)
  | .exprBreak => encodeBreak needsValue s

/-- `Encoder::encode_block`. -/
def encodeBlockStep (prev : EncFuns) (b : Block) (needsValue : Bool) (s : Enc) :
    Except CompileError Enc :=
  match b with
  | .mk exprs trailing =>
      let openVarCount := s.locals.varCount
      let parentCount := s.parents.length
      let s := { s with parents := s.locals :: s.parents }
      match prev.stmts exprs s with
      | .error er => .error er
      | .ok s =>
        match
          (match trailing with
           | some e =>
               let s := { s with referencesAt := [] }
               match prev.expr e needsValue s with
               | .error er => .error er
               | .ok s =>
                   if needsValue && !s.referencesAt.isEmpty then
                     .error .returnLocalReferences
                   else .ok s
           | none => .ok s :
           Except CompileError Enc) with
        | .error er => .error er
        | .ok s =>
          let varCount := s.locals.varCount - openVarCount
          let s := if needsValue then s.cleanUpLocals varCount else s.popLocals varCount
          match s.parents with
          | [] => .error (.internal "missing parent scope")
          | parent :: restParents =>
              let s := { s with parents := restParents }
              if s.parents.length ≠ parentCount then
                .error (.internal "parent scope mismatch at end of block")
              else .ok { s with locals := parent }

/-- The statement loop of `encode_block` / `encode_fn_decl`: terminated
expressions are encoded with `Needs=None`. -/
def encodeStmtsStep (prev : EncFuns) (es : List Expr) (s : Enc) :
    Except CompileError Enc :=
  match es with
  | [] => .ok s
  | e :: rest =>
      match prev.expr e false s with
      | .error er => .error er
      | .ok s => prev.stmts rest s

/-- The reversed-iteration loops of `encode_array_literal` / `encode_call_fn`
/ `encode_call_instance_fn`: the elements after the head are encoded first,
so the whole list is emitted in reverse source order, each with
`Needs=Value`. -/
def encodeListRevStep (prev : EncFuns) (es : List Expr) (s : Enc) :
    Except CompileError Enc :=
  match es with
  | [] => .ok s
  | e :: rest =>
      match prev.listRev rest s with
      | .error er => .error er
      | .ok s => prev.expr e true s

/-- The reversed-iteration loop of `encode_object_literal`: later pairs
first; for each pair the value is encoded, then the key is emitted as a
static string push. -/
def encodePairsRevStep (prev : EncFuns) (ps : List (String × Expr)) (s : Enc) :
    Except CompileError Enc :=
  match ps with
  | [] => .ok s
  | (key, value) :: rest =>
      match prev.pairsRev rest s with
      | .error er => .error er
      | .ok s =>
        match prev.expr value true s with
        | .error er => .error er
        | .ok s => encodeStringLit key true s

/-- The first loop of `encode_expr_if`: for each `else if` branch create a
fresh label, encode the branch condition (with the needs flag of the whole
`if`), and emit `jump_if` to the new label; returns the branch labels in
order. -/
def encodeElseIfCondsStep (prev : EncFuns) (bs : List ElseIfBranch)
    (needsValue : Bool) (s : Enc) : Except CompileError (Enc × List Nat) :=
  match bs with
  | [] => .ok (s, [])
  | .mk branchCond _ :: rest =>
      let (label, s) := s.newLabel
      match prev.expr branchCond needsValue s with
      | .error er => .error er
      | .ok s =>
        let s := s.push (.jumpIf label)
        match prev.elseIfConds rest needsValue s with
        | .error er => .error er
        | .ok (s, labels) => .ok (s, label :: labels)

/-- The bottom of the fuel tower: every call fails. -/
def encFailFuns : EncFuns :=
  ⟨fun _ _ _ => .error (.internal "fuel"),
   fun _ _ _ => .error (.internal "fuel"),
   fun _ _ => .error (.internal "fuel"),
   fun _ _ => .error (.internal "fuel"),
   fun _ _ => .error (.internal "fuel"),
   fun _ _ _ => .error (.internal "fuel")⟩

/-- The fuel-indexed tower of mutually recursive encoder functions. -/
def encoders : Nat → EncFuns
  | 0 => encFailFuns
  | fuel + 1 =>
      let prev := encoders fuel
      ⟨encodeExprStep prev, encodeBlockStep prev, encodeStmtsStep prev,
       encodeListRevStep prev, encodePairsRevStep prev, encodeElseIfCondsStep prev⟩

/-- `Encoder::encode_expr` at a given fuel. -/
def encodeExpr (fuel : Nat) (e : Expr) (needsValue : Bool) (s : Enc) :
    Except CompileError Enc :=
  (encoders fuel).expr e needsValue s

/-- `Encoder::encode_block` at a given fuel. -/
def encodeBlock (fuel : Nat) (b : Block) (needsValue : Bool) (s : Enc) :
    Except CompileError Enc :=
  (encoders fuel).block b needsValue s

/-- The statement loop at a given fuel. -/
def encodeStmts (fuel : Nat) (es : List Expr) (s : Enc) :
    Except CompileError Enc :=
  (encoders fuel).stmts es s

/-- The reversed element loop at a given fuel. -/
def encodeListRev (fuel : Nat) (es : List Expr) (s : Enc) :
    Except CompileError Enc :=
  (encoders fuel).listRev es s

/-- The reversed pair loop at a given fuel. -/
def encodePairsRev (fuel : Nat) (ps : List (String × Expr)) (s : Enc) :
    Except CompileError Enc :=
  (encoders fuel).pairsRev ps s

/-- The else-if condition loop at a given fuel. -/
def encodeElseIfConds (fuel : Nat) (bs : List ElseIfBranch) (needsValue : Bool)
    (s : Enc) : Except CompileError (Enc × List Nat) :=
  (encoders fuel).elseIfConds bs needsValue s

theorem encodeExpr_succ (fuel : Nat) (e : Expr) (needsValue : Bool) (s : Enc) :
    encodeExpr (fuel + 1) e needsValue s
      = encodeExprStep (encoders fuel) e needsValue s := rfl

theorem encodeBlock_succ (fuel : Nat) (b : Block) (needsValue : Bool) (s : Enc) :
    encodeBlock (fuel + 1) b needsValue s
      = encodeBlockStep (encoders fuel) b needsValue s := rfl

theorem encodeStmts_succ (fuel : Nat) (es : List Expr) (s : Enc) :
    encodeStmts (fuel + 1) es s = encodeStmtsStep (encoders fuel) es s := rfl

theorem encodeListRev_succ (fuel : Nat) (es : List Expr) (s : Enc) :
    encodeListRev (fuel + 1) es s = encodeListRevStep (encoders fuel) es s := rfl

theorem encodePairsRev_succ (fuel : Nat) (ps : List (String × Expr)) (s : Enc) :
    encodePairsRev (fuel + 1) ps s = encodePairsRevStep (encoders fuel) ps s := rfl

theorem encodeElseIfConds_succ (fuel : Nat) (bs : List ElseIfBranch)
    (needsValue : Bool) (s : Enc) :
    encodeElseIfConds (fuel + 1) bs needsValue s
      = encodeElseIfCondsStep (encoders fuel) bs needsValue s := rfl

/-- A function declaration as `encode_fn_decl` consumes it: parameter names
plus the body block. -/
structure FnDecl where
  args : List String
  body : Block

/-- The parameter loop of `encode_fn_decl`, after `.rev()` has been applied:
declare each name in list order with `new_local`. -/
def declParamsRev : List String → Locals → Except CompileError Locals
  | [], l => .ok l
  | name :: rest, l =>
      match l.newLocal name [] with
      | .error er => .error er
      | .ok l => declParamsRev rest l

/-- The parameter loop of `encode_fn_decl`: `for arg in args.iter().rev()`
declares the declared parameters in reverse order. -/
def declParams (args : List String) (l : Locals) : Except CompileError Locals :=
  declParamsRev args.reverse l

/-- `Encoder::encode_fn_decl`. -/
def encodeFnDecl (fuel : Nat) (f : FnDecl) (s : Enc) : Except CompileError Enc :=
  match f with
  | ⟨args, .mk exprs trailing⟩ =>
      match declParams args s.locals with
      | .error er => .error er
      | .ok paramLocals =>
        let s := { s with locals := paramLocals }
        if exprs.isEmpty && trailing.isNone then .ok (s.push .returnUnit)
        else
          match encodeStmts fuel exprs s with
          | .error er => .error er
          | .ok s =>
            match trailing with
            | some e =>
                let s := { s with referencesAt := [] }
                match encodeExpr fuel e true s with
                | .error er => .error er
                | .ok s =>
                    if !s.referencesAt.isEmpty then .error .returnLocalReferences
                    else .ok ((s.cleanUpLocals s.locals.varCount).push .ret)
            | none => .ok ((s.popLocals s.locals.varCount).push .returnUnit)

/-- The label referenced by a jump instruction, if any. -/
def instLabelRef : Inst → Option Nat
  | .jump label => some label
  | .jumpIf label => some label
  | .jumpIfNot label => some label
  | _ => none

/-- Modelled from the spec: the link-time label check of
`st::unit::Assembly` (not among the sources).  Linking "fails if any
referenced label was never committed"; these are the labels that would make
linking fail. -/
def danglingLabels (a : Assembly) : List Nat :=
  (a.insts.filterMap instLabelRef).filter (fun l => (a.committed.lookup l).isNone)

/-- The net number of values an instruction pushes minus the values it pops,
following the operand/stack documentation of the instruction set (`Return`
and `ReturnUnit` are frame-level and never occur inside an expression's
code). -/
def instDelta : Inst → Int
  | .returnUnit => 0
  | .ret => 0
  | .pop => -1
  | .popN count => -(count : Int)
  | .clean count => -(count : Int)
  | .unit | .bool _ | .integer _ | .float _ | .char _ | .string _ => 1
  | .replace _ => -1
  | .copy _ | .ptr _ => 1
  | .deref => 0
  | .replaceDeref => -2
  | .notInst => 0
  | .add | .sub | .div | .mul => -1
  | .eq | .neq | .lt | .gt | .lte | .gte | .isType => -1
  | .indexGet => -1
  | .indexSet => -3
  | .array count => 1 - (count : Int)
  | .object count => 1 - 2 * (count : Int)
  | .call _ args => 1 - (args : Int)
  | .callInstance _ args => -(args : Int)
  | .typeInst _ => 1
  | .jump _ => 0
  | .jumpIf _ | .jumpIfNot _ => -1

/-- The net stack effect of a straight-line instruction sequence. -/
def staticDelta (insts : List Inst) : Int :=
  (insts.map instDelta).sum

/-- How many values the `pop_locals` instructions remove from the stack. -/
def poppedCount (insts : List Inst) : Nat :=
  (insts.map (fun i =>
    match i with
    | .pop => 1
    | .popN count => count
    | _ => 0)).sum

/-- The base identifier an index/group chain bottoms out at, if any. -/
def baseIdent : Expr → Option String
  | .ident name => some name
  | .exprGroup e => baseIdent e
  | .indexGet target _ => baseIdent target
  | _ => none

mutual

/-- Modelled from the spec: "a pointer must never outlive its target — the
compiler rejects any function that would return a value containing a
reference to a slot local to that function" and the design note that the
sound rule is to "prohibit returning any value transitively containing a
stack pointer".  `mayRef taint e` holds when the value of `e` may contain a
reference to a function-local slot, given the set `taint` of variables whose
values may already contain one. -/
def mayRef (taint : List String) : Expr → Bool
  | .exprUnary .refOp _ _ => true
  | .exprUnary _ _ e => mayRef taint e
  | .ident name => taint.contains name
  | .exprGroup e => mayRef taint e
  | .indexGet target _ => mayRef taint target
  | .arrayLiteral items => mayRefList taint items
  | .objectLiteral items => mayRefPairs taint items
  | _ => false

/-- Whether any element of a list may contain a local reference. -/
def mayRefList (taint : List String) : List Expr → Bool
  | [] => false
  | e :: rest => mayRef taint e || mayRefList taint rest

/-- Whether any value of an object literal may contain a local reference. -/
def mayRefPairs (taint : List String) : List (String × Expr) → Bool
  | [] => false
  | (_, e) :: rest => mayRef taint e || mayRefPairs taint rest

end

/-- Modelled from the spec: how one statement updates the set of variables
whose values may contain a reference to a local slot.  A `let` or direct
assignment taints its target when the right-hand side may carry a reference;
an index-set taints the container it stores into. -/
def stmtTaint (taint : List String) : Expr → List String
  | .exprLet name e =>
      if mayRef taint e then name :: taint else taint.filter (· ≠ name)
  | .exprBinary lhs .assign rhs =>
      (match baseIdent lhs with
       | some name => if mayRef taint rhs then name :: taint else taint
       | none => taint)
  | .indexSet target _ value =>
      if mayRef taint value then
        (match baseIdent target with
         | some name => name :: taint
         | none => taint)
      else taint
  | _ => taint

/-- Modelled from the spec: a function "whose value-producing trailing
expression takes or propagates a reference (`&x`) to one of that function's
own local slots" — the trailing expression may carry a local reference after
the statements have propagated references through lets, assignments and
container writes. -/
def propagatesLocalRef (f : FnDecl) : Bool :=
  match f.body with
  | .mk exprs trailing =>
      match trailing with
      | none => false
      | some e => mayRef (exprs.foldl stmtTaint []) e

/-- The runtime value model of `runestick` (`Value` is not among the source
files; the variants are those named by `tuple.rs` — `Unit`, `Tuple` — plus
representative other variants from the spec's value model).  Managed payloads
are stored inline: the `Shared`/borrow machinery is outside this model, so
`take()` always succeeds. -/
inductive Value where
  | unit
  | bool (b : Bool)
  | byte (b : Nat)
  | char (c : Char)
  | integer (n : Int)
  | typeHash (h : ItemHash)
  | string (s : String)
  | vec (items : List Value)
  | tuple (items : List Value)
  | object (fields : List (String × Value))
  | function (h : ItemHash)

/-- `Value::type_info`, reduced to the variant name for this model. -/
def Value.typeInfo : Value → String
  | .unit => "unit"
  | .bool _ => "bool"
  | .byte _ => "byte"
  | .char _ => "char"
  | .integer _ => "integer"
  | .typeHash _ => "type"
  | .string _ => "string"
  | .vec _ => "vec"
  | .tuple _ => "tuple"
  | .object _ => "object"
  | .function _ => "function"

/-- The `VmError` produced by failed conversions:
`VmError::expected::<T>(actual_type_info)`. -/
inductive VmError where
  | expected (actualTypeInfo : String)
  deriving DecidableEq, Repr

/-- The dynamic `Tuple` of `runestick` (a boxed slice of values). -/
structure DynTuple where
  inner : List Value

/-- `Tuple::empty`. -/
def DynTuple.empty : DynTuple := ⟨[]⟩

/-- `Tuple::len`. -/
def DynTuple.len (t : DynTuple) : Nat := t.inner.length

/-- `impl FromValue for Tuple` (`tuple.rs` lines 133-141): `Unit` converts to
the empty tuple, `Tuple` yields its contents, every other variant is an
expected-type error. -/
def DynTuple.fromValue : Value → Except VmError DynTuple
  | .unit => .ok DynTuple.empty
  | .tuple items => .ok ⟨items⟩
  | actual => .error (.expected actual.typeInfo)

/-- How many stack values `pop_locals` removes: exactly its argument. -/
theorem poppedCount_popLocalsInsts (k : Nat) :
    poppedCount (popLocalsInsts k) = k := by
  match k with
  | 0 => rfl
  | 1 => rfl
  | n + 2 => simp [popLocalsInsts, poppedCount]

/-- C10: converting a runtime value to a `Tuple` through `FromValue` accepts
`Value::Unit` and yields the empty tuple (length 0), accepts `Value::Tuple`
yielding its contents, and returns an expected-type `VmError` for every other
value variant. -/
theorem c10_tuple_from_value :
    DynTuple.fromValue .unit = .ok DynTuple.empty
    ∧ DynTuple.empty.len = 0
    ∧ (∀ items, DynTuple.fromValue (.tuple items) = .ok ⟨items⟩)
    ∧ (∀ v : Value, v ≠ .unit → (∀ items, v ≠ .tuple items) →
        DynTuple.fromValue v = .error (.expected v.typeInfo)) := by
  refine ⟨rfl, rfl, fun items => rfl, fun v h1 h2 => ?_⟩
  cases v with
  | unit => exact absurd rfl h1
  | tuple items => exact absurd rfl (h2 items)
  | bool b => rfl
  | byte b => rfl
  | char c => rfl
  | integer n => rfl
  | typeHash h => rfl
  | string s => rfl
  | vec items => rfl
  | object fields => rfl
  | function h => rfl

/-- C10 witness: the theorem applied to the concrete values `(unit,)` and
`true`. -/
theorem c10_tuple_from_value_witness :
    DynTuple.fromValue (.tuple [.unit]) = .ok ⟨[.unit]⟩
    ∧ DynTuple.fromValue (.bool true) = .error (.expected "bool") :=
  ⟨c10_tuple_from_value.2.2.1 [.unit],
   c10_tuple_from_value.2.2.2 (.bool true) (fun h => Value.noConfusion h)
     (fun _ h => Value.noConfusion h)⟩

/-- C9 (amended): a `break` lowered with `Needs=None` outside every loop
fails with `BreakOutsideOfLoop` (the error return discards the emitted
buffer, so no instructions for the break reach the unit); a `break` lowered
with `Needs=Value` fails with `BreakDoesNotProduceValue` regardless of loop
nesting, and `encode_expr` dispatches break expressions to `encode_break`
unchanged. -/
theorem c9_break_outside_loop :
    (∀ s : Enc, s.loops = [] → encodeBreak false s = .error .breakOutsideOfLoop)
    ∧ (∀ s : Enc, encodeBreak true s = .error .breakDoesNotProduceValue)
    ∧ (∀ (fuel : Nat) (needsValue : Bool) (s : Enc),
        encodeExpr (fuel + 1) .exprBreak needsValue s = encodeBreak needsValue s) := by
  refine ⟨fun s h => ?_, fun s => rfl, fun fuel needsValue s => rfl⟩
  simp [encodeBreak, h]

/-- C9 witness: the theorem applied at the initial encoder state. -/
theorem c9_break_outside_loop_witness :
    encodeBreak false Enc.init = .error .breakOutsideOfLoop
    ∧ encodeBreak true Enc.init = .error .breakDoesNotProduceValue :=
  ⟨c9_break_outside_loop.1 Enc.init rfl, c9_break_outside_loop.2.1 Enc.init⟩

/-- C9 counterexample: a whole function whose trailing expression is a `break`
outside any loop fails with `BreakDoesNotProduceValue`, not
`BreakOutsideOfLoop`, because the needs-value check runs first. -/
theorem c9_counterexample :
    encodeFnDecl 2 ⟨[], .mk [] (some .exprBreak)⟩ Enc.init
      = .error .breakDoesNotProduceValue
    ∧ CompileError.breakDoesNotProduceValue ≠ CompileError.breakOutsideOfLoop := by
  exact ⟨rfl, by decide⟩

/-- C5: for a `break` compiled with at least one enclosing loop (and a
variable count at least the innermost loop's entry count, which
`encode_break` otherwise rejects as an internal error), the emitted
instructions pop exactly `var_count − loop.var_count` values and jump to the
innermost loop's end label. -/
theorem c5_break_pops (s : Enc) (l : LoopRec) (rest : List LoopRec)
    (hloops : s.loops = l :: rest) (hge : l.varCount ≤ s.locals.varCount) :
    encodeBreak false s
      = .ok ((s.popLocals (s.locals.varCount - l.varCount)).push (.jump l.endLabel))
    ∧ poppedCount (popLocalsInsts (s.locals.varCount - l.varCount))
        = s.locals.varCount - l.varCount := by
  constructor
  · simp only [encodeBreak, hloops, Bool.false_eq_true, if_false]
    rw [if_neg (by omega)]
  · exact poppedCount_popLocalsInsts _

/-- C5 witness: the theorem applied at a state with one live local inside one
loop whose entry count was zero: one `Pop` and a jump to label 5. -/
theorem c5_break_pops_witness :
    encodeBreak false
        ⟨⟨[], []⟩, ⟨[], 0, []⟩, [], ⟨[("x", ⟨0, []⟩)], 1⟩, [⟨5, 0⟩], []⟩
      = .ok ((Enc.popLocals ⟨⟨[], []⟩, ⟨[], 0, []⟩, [], ⟨[("x", ⟨0, []⟩)], 1⟩,
          [⟨5, 0⟩], []⟩ 1).push (.jump 5))
    ∧ poppedCount (popLocalsInsts 1) = 1 :=
  c5_break_pops _ ⟨5, 0⟩ [] rfl (by decide)

/-- C7: when the `let`-bound name is already live after the initializer has
been lowered, the compiler emits `Replace{offset}` into the existing slot
(plus a `Unit` push when a value is needed) instead of allocating a new slot,
and the locals — in particular the variable count — are unchanged by the
rebinding declaration. -/
theorem c7_let_rebinding (fuel : Nat) (name : String) (e : Expr)
    (needsValue : Bool) (s s₁ : Enc) (lv : Local)
    (he : encodeExpr fuel e true { s with referencesAt := [] } = .ok s₁)
    (hl : s₁.locals.get name = some lv) :
    encodeExpr (fuel + 1) (.exprLet name e) needsValue s
      = .ok (if needsValue then (s₁.push (.replace lv.offset)).push .unit
             else s₁.push (.replace lv.offset))
    ∧ (s₁.push (.replace lv.offset)).locals = s₁.locals
    ∧ (s₁.push (.replace lv.offset)).locals.varCount = s₁.locals.varCount := by
  refine ⟨?_, rfl, rfl⟩
  rw [encodeExpr_succ]
  simp only [encodeExprStep]
  rw [show (encoders fuel).expr e true { s with referencesAt := [] } = .ok s₁ from he]
  simp only [Locals.get] at hl
  simp [Locals.declVar, hl]

/-- C7 witness: rebinding `x` (slot 0) with initializer `2`. -/
theorem c7_let_rebinding_witness :
    encodeExpr 2 (.exprLet "x" (.numberLiteral (.integer 2))) false
        ⟨⟨[], []⟩, ⟨[], 0, []⟩, [], ⟨[("x", ⟨0, []⟩)], 1⟩, [], []⟩
      = .ok ((Enc.push ⟨⟨[], []⟩, ⟨[.integer 2], 0, []⟩, [], ⟨[("x", ⟨0, []⟩)], 1⟩,
          [], []⟩ (.replace 0)))
    ∧ (Enc.push ⟨⟨[], []⟩, ⟨[.integer 2], 0, []⟩, [], ⟨[("x", ⟨0, []⟩)], 1⟩,
        [], []⟩ (.replace 0)).locals.varCount = 1 := by
  have h := c7_let_rebinding 1 "x" (.numberLiteral (.integer 2)) false
    ⟨⟨[], []⟩, ⟨[], 0, []⟩, [], ⟨[("x", ⟨0, []⟩)], 1⟩, [], []⟩
    ⟨⟨[], []⟩, ⟨[.integer 2], 0, []⟩, [], ⟨[("x", ⟨0, []⟩)], 1⟩, [], []⟩
    ⟨0, []⟩ (by decide) (by decide)
  exact ⟨h.1, by decide⟩

/-- C8 counterexample: lowering the object literal `{"a": 1, "b": 2}` with
`Needs=Value` pushes each key as a static-string value between the element
values, and the final instruction is `Object` carrying the pair count `2`,
not a slot of an ordered key vector. -/
theorem c8_counterexample :
    encodeExpr 20
        (.objectLiteral [("a", .numberLiteral (.integer 1)),
                         ("b", .numberLiteral (.integer 2))]) true Enc.init
      = .ok ⟨⟨["b", "a"], []⟩,
          ⟨[.integer 2, .string 0, .integer 1, .string 1, .object 2], 0, []⟩,
          [], ⟨[], 0⟩, [], []⟩
    ∧ ([Inst.integer 2, .string 0, .integer 1, .string 1, .object 2].countP
        (fun i => match i with | .string _ => true | _ => false)) = 2
    ∧ [Inst.integer 2, .string 0, .integer 1, .string 1, .object 2].getLast?
        = some (.object 2) := by
  refine ⟨by decide, by decide, by decide⟩

/-- C8 (amended): with `Needs=Value` an array literal emits its elements in
reverse source order followed by a single `Array{count}` instruction; an
object literal emits, for each key-value pair in reverse source order, the
value and then the key as a static-string push, followed by a single
`Object{count}` instruction carrying the pair count. -/
theorem c8_literal_lowering :
    (∀ (fuel : Nat) (items : List Expr) (s : Enc),
        encodeExpr (fuel + 1) (.arrayLiteral items) true s
          = Except.map (fun m => m.push (.array items.length))
              (encodeListRev fuel items s))
    ∧ (∀ (fuel : Nat) (items : List (String × Expr)) (s : Enc),
        encodeExpr (fuel + 1) (.objectLiteral items) true s
          = Except.map (fun m => m.push (.object items.length))
              (encodePairsRev fuel items s))
    ∧ (∀ (fuel : Nat) (e : Expr) (rest : List Expr) (s : Enc),
        encodeListRev (fuel + 1) (e :: rest) s
          = (encodeListRev fuel rest s).bind (fun m => encodeExpr fuel e true m))
    ∧ (∀ (fuel : Nat) (key : String) (value : Expr)
        (rest : List (String × Expr)) (s : Enc),
        encodePairsRev (fuel + 1) ((key, value) :: rest) s
          = (encodePairsRev fuel rest s).bind (fun m =>
              (encodeExpr fuel value true m).bind (fun m₂ =>
                encodeStringLit key true m₂)))
    ∧ (∀ (key : String) (s : Enc),
        encodeStringLit key true s
          = .ok (({ s with unit := (s.unit.staticString key).2 }).push
              (.string (s.unit.staticString key).1))) := by
  refine ⟨?_, ?_, ?_, ?_, ?_⟩
  · intro fuel items s
    rw [encodeExpr_succ]
    simp only [encodeExprStep, encodeListRev]
    cases h : (encoders fuel).listRev items s <;> simp [h, Except.map]
  · intro fuel items s
    rw [encodeExpr_succ]
    simp only [encodeExprStep, encodePairsRev]
    cases h : (encoders fuel).pairsRev items s <;> simp [h, Except.map]
  · intro fuel e rest s
    rw [encodeListRev_succ]
    simp only [encodeListRevStep, encodeListRev, encodeExpr]
    cases h : (encoders fuel).listRev rest s <;> simp [h, Except.bind]
  · intro fuel key value rest s
    rw [encodePairsRev_succ]
    simp only [encodePairsRevStep, encodePairsRev, encodeExpr]
    cases h : (encoders fuel).pairsRev rest s with
    | error er => simp [h, Except.bind]
    | ok s₁ =>
        simp only [h, Except.bind]
        cases h₂ : (encoders fuel).expr value true s₁ <;> simp [h₂]
  · intro key s
    rcases hp : s.unit.staticString key with ⟨slot, u⟩
    simp [encodeStringLit, hp]

/-- C1 counterexample: a bool literal lowered with `Needs=None` emits a push
instruction instead of nothing, so the stack depth grows by one. -/
theorem c1_counterexample :
    encodeExpr 1 (.boolLiteral true) false Enc.init = .ok (Enc.init.push (.bool true))
    ∧ (Enc.init.push (.bool true)).asm.insts = [.bool true]
    ∧ staticDelta [Inst.bool true] ≠ 0 := by
  refine ⟨rfl, rfl, by decide⟩

/-- C1 (amended): with `Needs=None`, number, char, string, and object
literals and all-literal array literals emit nothing (stack depth unchanged);
unit and bool literals are emitted unconditionally as one push (stack depth
grows by one, there is no `Pop`); calls, index-get operations, and non-assign
binary operations emit exactly the instructions of their `Needs=Value`
lowering followed by one `Pop` of the result. -/
theorem c1_needs_none_discipline :
    (∀ (fuel : Nat) (n : Number) (s : Enc),
        encodeExpr (fuel + 1) (.numberLiteral n) false s = .ok s)
    ∧ (∀ (fuel : Nat) (c : Char) (s : Enc),
        encodeExpr (fuel + 1) (.charLiteral c) false s = .ok s)
    ∧ (∀ (fuel : Nat) (str : String) (s : Enc),
        encodeExpr (fuel + 1) (.stringLiteral str) false s = .ok s)
    ∧ (∀ (fuel : Nat) (items : List (String × Expr)) (s : Enc),
        encodeExpr (fuel + 1) (.objectLiteral items) false s = .ok s)
    ∧ (∀ (fuel : Nat) (items : List Expr) (s : Enc), isAllLiteral items = true →
        encodeExpr (fuel + 1) (.arrayLiteral items) false s = .ok s)
    ∧ (∀ (fuel : Nat) (needsValue : Bool) (s : Enc),
        encodeExpr (fuel + 1) .unitLiteral needsValue s = .ok (s.push .unit)
          ∧ staticDelta [Inst.unit] = 1)
    ∧ (∀ (fuel : Nat) (b : Bool) (needsValue : Bool) (s : Enc),
        encodeExpr (fuel + 1) (.boolLiteral b) needsValue s = .ok (s.push (.bool b))
          ∧ staticDelta [Inst.bool b] = 1)
    ∧ (∀ (fuel : Nat) (first : String) (rest : List String) (args : List Expr)
        (s : Enc),
        encodeExpr (fuel + 1) (.callFn first rest args) false s
          = Except.map (fun m => m.push .pop)
              (encodeExpr (fuel + 1) (.callFn first rest args) true s))
    ∧ (∀ (fuel : Nat) (instExpr : Expr) (name : String) (args : List Expr)
        (s : Enc),
        encodeExpr (fuel + 1) (.callInstanceFn instExpr name args) false s
          = Except.map (fun m => m.push .pop)
              (encodeExpr (fuel + 1) (.callInstanceFn instExpr name args) true s))
    ∧ (∀ (fuel : Nat) (target index : Expr) (s : Enc),
        encodeExpr (fuel + 1) (.indexGet target index) false s
          = Except.map (fun m => m.push .pop)
              (encodeExpr (fuel + 1) (.indexGet target index) true s))
    ∧ (∀ (fuel : Nat) (lhs : Expr) (op : BinOp) (rhs : Expr) (s : Enc),
        op ≠ BinOp.assign →
        encodeExpr (fuel + 1) (.exprBinary lhs op rhs) false s
          = Except.map (fun m => m.push .pop)
              (encodeExpr (fuel + 1) (.exprBinary lhs op rhs) true s))
    ∧ staticDelta [Inst.pop] = -1 := by
  refine ⟨fun _ _ _ => rfl, fun _ _ _ => rfl, fun _ _ _ => rfl, fun _ _ _ => rfl,
    ?_, fun _ _ _ => ⟨rfl, rfl⟩, fun _ _ _ _ => ⟨rfl, rfl⟩, ?_, ?_, ?_, ?_, by decide⟩
  · intro fuel items s h
    rw [encodeExpr_succ]
    simp [encodeExprStep, h]
  · intro fuel first rest args s
    rw [encodeExpr_succ, encodeExpr_succ]
    simp only [encodeExprStep]
    cases h : (encoders fuel).listRev args s <;> simp [h, Except.map]
  · intro fuel instExpr name args s
    rw [encodeExpr_succ, encodeExpr_succ]
    simp only [encodeExprStep]
    cases h : (encoders fuel).listRev args s with
    | error er => simp [h, Except.map]
    | ok s₁ =>
        simp only [h]
        cases h₂ : (encoders fuel).expr instExpr true s₁ <;> simp [h₂, Except.map]
  · intro fuel target index s
    rw [encodeExpr_succ, encodeExpr_succ]
    simp only [encodeExprStep]
    cases h : (encoders fuel).expr index true s with
    | error er => simp [h, Except.map]
    | ok s₁ =>
        simp only [h]
        cases h₂ : (encoders fuel).expr target true s₁ <;> simp [h₂, Except.map]
  · intro fuel lhs op rhs s hop
    rw [encodeExpr_succ, encodeExpr_succ]
    cases op
    case assign => exact absurd rfl hop
    all_goals (
      simp only [encodeExprStep]
      cases h : (encoders fuel).expr lhs true s with
      | error er => simp [h, Except.map]
      | ok s₁ =>
          simp only [h]
          cases h₂ : (encoders fuel).expr rhs true s₁ <;>
            simp [h₂, Except.map, binOpInst])

/-- C1 witness: the hypotheses of the amended theorem discharged at an
all-literal array and at an integer addition. -/
theorem c1_needs_none_discipline_witness :
    encodeExpr 1 (.arrayLiteral [.numberLiteral (.integer 1)]) false Enc.init
      = .ok Enc.init
    ∧ encodeExpr 2
        (.exprBinary (.numberLiteral (.integer 1)) .add (.numberLiteral (.integer 2)))
        false Enc.init
      = Except.map (fun m => m.push .pop)
          (encodeExpr 2
            (.exprBinary (.numberLiteral (.integer 1)) .add
              (.numberLiteral (.integer 2))) true Enc.init) :=
  ⟨c1_needs_none_discipline.2.2.2.2.1 0 [.numberLiteral (.integer 1)] Enc.init
     (by decide),
   c1_needs_none_discipline.2.2.2.2.2.2.2.2.2.2.1 1 (.numberLiteral (.integer 1))
     .add (.numberLiteral (.integer 2)) Enc.init (by decide)⟩

/-- Association-list lookup skips an entry with a different key. -/
theorem lookup_cons_ne {β : Type} (k : String) (v : β) (es : List (String × β))
    (n : String) (h : k ≠ n) : ((k, v) :: es).lookup n = es.lookup n := by
  simp [List.lookup, beq_eq_false_iff_ne.mpr (Ne.symm h)]

/-- Association-list lookup finds the head entry. -/
theorem lookup_cons_self {β : Type} (k : String) (v : β) (es : List (String × β)) :
    ((k, v) :: es).lookup k = some v := by
  simp [List.lookup]

/-- What the parameter-declaration loop does to the locals: the names are
assigned consecutive offsets in list order starting at the current variable
count, the count grows by the number of names, and other names are
untouched. -/
theorem declParamsRev_spec (names : List String) (l : Locals)
    (hn : names.Nodup)
    (hfree : ∀ n ∈ names, l.locals.lookup n = none) :
    ∃ l₂, declParamsRev names l = .ok l₂
      ∧ l₂.varCount = l.varCount + names.length
      ∧ (∀ i (h : i < names.length), l₂.get names[i] = some ⟨l.varCount + i, []⟩)
      ∧ (∀ n, n ∉ names → l₂.get n = l.get n) := by
  induction names generalizing l with
  | nil =>
      exact ⟨l, rfl, by simp, fun i h => absurd h (by simp), fun n _ => rfl⟩
  | cons name rest ih =>
      have hfree0 : l.locals.lookup name = none := hfree name (by simp)
      have hnotin : name ∉ rest := (List.nodup_cons.mp hn).1
      obtain ⟨l₂, hrun, hvc, hidx, hpres⟩ :=
        ih ⟨(name, ⟨l.varCount, []⟩) :: l.locals, l.varCount + 1⟩
          (List.nodup_cons.mp hn).2
          (by
            intro n hn₂
            have hne : name ≠ n := fun hcontra => hnotin (hcontra ▸ hn₂)
            rw [lookup_cons_ne name _ _ n hne]
            exact hfree n (by simp [hn₂]))
      refine ⟨l₂, ?_, by simp [hvc]; omega, ?_, ?_⟩
      · simp only [declParamsRev, Locals.newLocal, hfree0, Option.isSome_none,
          Bool.false_eq_true, if_false]
        exact hrun
      · intro i h
        match i with
        | 0 =>
            have := hpres name hnotin
            simp only [List.getElem_cons_zero]
            rw [this]
            simp [Locals.get, lookup_cons_self]
        | j + 1 =>
            have := hidx j (by simpa using h)
            simpa [Nat.add_assoc, Nat.add_comm 1 j] using this
      · intro n hnmem
        have h₁ : n ∉ rest := fun hc => hnmem (by simp [hc])
        have h₂ : name ≠ n := fun hc => hnmem (by simp [hc])
        rw [hpres n h₁]
        simp only [Locals.get]
        exact lookup_cons_ne name _ _ n h₂

/-- C2 counterexample: for `fn(a, b)` the first declared parameter `a` is
assigned slot 1, not slot 0 as the claim requires. -/
theorem c2_counterexample :
    (declParams ["a", "b"] Locals.new).map (fun l => l.get "a")
      = .ok (some ⟨1, []⟩)
    ∧ (1 : Nat) ≠ 0 := ⟨by decide, by decide⟩

/-- C2 (amended): `encode_fn_decl` declares the parameters with
`args.iter().rev()`, so for distinct parameter names the i-th declared
parameter is assigned local slot offset `n − 1 − i` (the reverse of
declaration order), matching the arguments that calls push in reverse. -/
theorem c2_param_slots (args : List String) (hn : args.Nodup) :
    ∃ l, declParams args Locals.new = .ok l
      ∧ l.varCount = args.length
      ∧ ∀ i (h : i < args.length),
          l.get args[i] = some ⟨args.length - 1 - i, []⟩ := by
  obtain ⟨l₂, hrun, hvc, hidx, _⟩ := declParamsRev_spec args.reverse Locals.new
    (List.nodup_reverse.mpr hn) (fun n _ => rfl)
  refine ⟨l₂, hrun, by simpa [Locals.new] using hvc, ?_⟩
  intro i h
  have hj : args.length - 1 - i < args.reverse.length := by
    simp only [List.length_reverse]; omega
  have hswap : args.reverse[args.length - 1 - i] = args[i] := by
    have h₁ : args.reverse[args.length - 1 - i]? = args[i]? := by
      rw [List.getElem?_reverse (by omega)]
      congr 1
      omega
    have h₂ := List.getElem?_eq_getElem hj
    have h₃ := List.getElem?_eq_getElem h
    rw [h₂, h₃] at h₁
    exact Option.some.inj h₁
  have := hidx (args.length - 1 - i) hj
  rw [hswap] at this
  simpa [Locals.new] using this

/-- C2 witness: the amended theorem applied to the parameter list
`["a", "b"]`. -/
theorem c2_param_slots_witness :
    ∃ l, declParams ["a", "b"] Locals.new = .ok l
      ∧ l.varCount = ["a", "b"].length
      ∧ ∀ i (h : i < ["a", "b"].length),
          l.get ["a", "b"][i] = some ⟨["a", "b"].length - 1 - i, []⟩ :=
  c2_param_slots ["a", "b"] (by decide)

/-- `if true { 1 } else if false { 2 } else if false { 3 }` — an if
expression with two `else if` branches. -/
def ifTwoElseIfs : Expr :=
  .exprIf (.boolLiteral true) (.mk [] (some (.numberLiteral (.integer 1))))
    [ .mk (.boolLiteral false) (.mk [] (some (.numberLiteral (.integer 2))))
    , .mk (.boolLiteral false) (.mk [] (some (.numberLiteral (.integer 3)))) ]
    none

/-- C3: lowering an if expression with two `else if` branches succeeds but
commits only the first branch label and lowers only the first branch block —
label 3 (the second branch's label) is the target of an emitted `jump_if` yet
is never committed, so it dangles and linking fails, and the second branch's
body (`Integer 3`) never appears in the instruction stream. -/
theorem c3_second_branch_dropped :
    ∃ s, encodeExpr 20 ifTwoElseIfs true Enc.init = .ok s
      ∧ danglingLabels s.asm = [3]
      ∧ s.asm.committed.lookup 3 = none
      ∧ s.asm.insts.contains (.jumpIf 3) = true
      ∧ s.asm.insts.contains (.integer 3) = false := by
  refine ⟨⟨⟨[], []⟩,
      ⟨[.bool true, .jumpIf 0, .bool false, .jumpIf 2, .bool false, .jumpIf 3,
        .unit, .jump 1, .integer 1, .jump 1, .integer 2, .jump 1], 4,
       [(1, 12), (2, 10), (0, 8)]⟩,
      [], ⟨[], 0⟩, [], []⟩, by decide, by decide, by decide, by decide, by decide⟩

/-- `fn f() { let x = 1; let a = [0]; a[0] = &x; a[0] }` — the reference to
the local `x` is stored into the array `a` by an index-set, then returned via
the trailing `a[0]`. -/
def refThroughIndexSet : FnDecl :=
  ⟨[], .mk
    [ .exprLet "x" (.numberLiteral (.integer 1))
    , .exprLet "a" (.arrayLiteral [.numberLiteral (.integer 0)])
    , .indexSet (.ident "a") (.numberLiteral (.integer 0))
        (.exprUnary .refOp 7 (.ident "x")) ]
    (some (.indexGet (.ident "a") (.numberLiteral (.integer 0))))⟩

/-- C6 counterexample: `refThroughIndexSet` propagates a reference to its own
local `x` into its returned value (the emitted code stores `Ptr 0` into the
array and the trailing expression reads that array), yet compilation succeeds
instead of failing with `ReturnLocalReferences`: the index-set does not
record the reference in the target's `references_at`. -/
theorem c6_counterexample :
    encodeFnDecl 20 refThroughIndexSet Enc.init
      = .ok ⟨⟨[], []⟩,
          ⟨[.integer 1, .integer 0, .array 1, .ptr 0, .integer 0, .copy 1,
            .indexSet, .integer 0, .copy 1, .indexGet, .clean 2, .ret], 0, []⟩,
          [], ⟨[("a", ⟨1, []⟩), ("x", ⟨0, []⟩)], 2⟩, [], []⟩
    ∧ propagatesLocalRef refThroughIndexSet = true
    ∧ [Inst.integer 1, .integer 0, .array 1, .ptr 0, .integer 0, .copy 1,
       .indexSet, .integer 0, .copy 1, .indexGet, .clean 2, .ret].contains
        (.ptr 0) = true := ⟨by decide, by decide, by decide⟩

/-- The `get_mut`-and-`extend` step of `encode_assign`: when the name is
bound, `extendLocalRefs` returns its offset and appends the new spans to
that entry's recorded references. -/
theorem extendLocalRefs_spec (map : List (String × Local)) (name : String)
    (refs : List Span) (lv : Local) (h : map.lookup name = some lv) :
    ∃ map₂, extendLocalRefs map name refs = some (lv.offset, map₂)
      ∧ map₂.lookup name = some ⟨lv.offset, lv.referencesAt ++ refs⟩ := by
  induction map with
  | nil => exact absurd h (by simp)
  | cons kv rest ih =>
      obtain ⟨k, v⟩ := kv
      by_cases hk : k = name
      · subst hk
        rw [lookup_cons_self] at h
        have hv : v = lv := Option.some.inj h
        refine ⟨(k, { lv with referencesAt := lv.referencesAt ++ refs }) :: rest,
          ?_, ?_⟩
        · simp [extendLocalRefs, hv]
        · exact lookup_cons_self _ _ _
      · rw [lookup_cons_ne k v rest name hk] at h
        obtain ⟨map₂, hext, hlook⟩ := ih h
        refine ⟨(k, v) :: map₂, by simp [extendLocalRefs, hk, hext], ?_⟩
        rw [lookup_cons_ne k v map₂ name hk]
        exact hlook

/-- C6 (amended): the `references_at` tracking rejects a function whose
trailing expression carries a visible reference, and `let` / identifier
assignment do record references into slots: (1) a trailing `&name` fails
with `ReturnLocalReferences`; (2) a trailing identifier whose slot carries a
recorded reference fails with `ReturnLocalReferences`; (3) a `let` that
declares a fresh name stores the references gathered while lowering its
initializer (e.g. `[span]` for `let y = &x`) in the new slot; (4) an
assignment `name = rhs` appends the references gathered from `rhs` to the
slot's record.  References stored into a container by an index-set are not
recorded, so such functions compile (counterexample). -/
theorem c6_reference_tracking :
    (∀ (fuel : Nat) (args : List String) (stmts : List Expr) (sp : Span)
        (name : String) (paramLocals : Locals) (s₁ : Enc),
        declParams args Enc.init.locals = .ok paramLocals →
        encodeStmts (fuel + 1) stmts { Enc.init with locals := paramLocals }
          = .ok s₁ →
        (s₁.locals.get name).isSome = true →
        encodeFnDecl (fuel + 1)
            ⟨args, .mk stmts (some (.exprUnary .refOp sp (.ident name)))⟩ Enc.init
          = .error .returnLocalReferences)
    ∧ (∀ (fuel : Nat) (args : List String) (stmts : List Expr) (name : String)
        (paramLocals : Locals) (s₁ : Enc) (lv : Local),
        declParams args Enc.init.locals = .ok paramLocals →
        encodeStmts (fuel + 1) stmts { Enc.init with locals := paramLocals }
          = .ok s₁ →
        s₁.locals.get name = some lv →
        lv.referencesAt ≠ [] →
        encodeFnDecl (fuel + 1) ⟨args, .mk stmts (some (.ident name))⟩ Enc.init
          = .error .returnLocalReferences)
    ∧ (∀ (fuel : Nat) (yName : String) (e : Expr) (needsValue : Bool)
        (s s₂ : Enc),
        encodeExpr (fuel + 1) e true { s with referencesAt := [] } = .ok s₂ →
        s₂.locals.get yName = none →
        ∃ s₃, encodeExpr (fuel + 1 + 1) (.exprLet yName e) needsValue s = .ok s₃
          ∧ s₃.locals.get yName = some ⟨s₂.locals.varCount, s₂.referencesAt⟩)
    ∧ (∀ (fuel : Nat) (name : String) (rhs : Expr) (needsValue : Bool)
        (s s₂ : Enc) (lv : Local),
        encodeExpr (fuel + 1) rhs true { s with referencesAt := [] } = .ok s₂ →
        s₂.locals.get name = some lv →
        ∃ s₃, encodeExpr (fuel + 1 + 1) (.exprBinary (.ident name) .assign rhs)
            needsValue s = .ok s₃
          ∧ s₃.locals.get name
              = some ⟨lv.offset, lv.referencesAt ++ s₂.referencesAt⟩) := by
  refine ⟨?_, ?_, ?_, ?_⟩
  · intro fuel args stmts sp name paramLocals s₁ hp hs hname
    obtain ⟨lv, hlv⟩ := Option.isSome_iff_exists.mp hname
    simp only [encodeFnDecl]
    rw [hp]
    simp only [Option.isNone_some, Bool.and_false, Bool.false_eq_true, if_false]
    rw [show encodeStmts (fuel + 1) stmts { Enc.init with locals := paramLocals }
          = .ok s₁ from hs]
    simp only [encodeExpr_succ, encodeExprStep, encodeRef]
    simp [hlv, Enc.push]
  · intro fuel args stmts name paramLocals s₁ lv hp hs hlv hne
    have hempty : lv.referencesAt.isEmpty = false := by
      cases hrefs : lv.referencesAt with
      | nil => exact absurd hrefs hne
      | cons a rest => rfl
    simp only [encodeFnDecl]
    rw [hp]
    simp only [Option.isNone_some, Bool.and_false, Bool.false_eq_true, if_false]
    rw [show encodeStmts (fuel + 1) stmts { Enc.init with locals := paramLocals }
          = .ok s₁ from hs]
    simp only [encodeExpr_succ, encodeExprStep, encodeIdent]
    simp [hlv, Enc.push, hempty]
  · intro fuel yName e needsValue s s₂ he hfresh
    simp only [encodeExpr_succ, encodeExprStep]
    rw [show (encoders (fuel + 1)).expr e true { s with referencesAt := [] }
          = .ok s₂ from he]
    simp only [Locals.get] at hfresh
    simp only [Locals.declVar, hfresh]
    refine ⟨_, rfl, ?_⟩
    cases needsValue <;>
      simp [Enc.push, Locals.get, lookup_cons_self]
  · intro fuel name rhs needsValue s s₂ lv he hlv
    obtain ⟨map₂, hext, hlook⟩ := extendLocalRefs_spec s₂.locals.locals name
      s₂.referencesAt lv (by simpa [Locals.get] using hlv)
    simp only [encodeExpr_succ, encodeExprStep]
    rw [show (encoders (fuel + 1)).expr rhs true { s with referencesAt := [] }
          = .ok s₂ from he]
    simp only [hext]
    refine ⟨_, rfl, ?_⟩
    cases needsValue <;> simp [Enc.push, Locals.get, hlook]

/-- C6 witness: the rejection conjuncts applied end to end — the function
`fn f() { let x = 1; let y = &x; y }`, whose trailing identifier carries the
reference recorded by the `let`, and the function `fn f(x) { &x }`. -/
theorem c6_reference_tracking_witness :
    encodeFnDecl 4
        ⟨[], .mk
          [ .exprLet "x" (.numberLiteral (.integer 1))
          , .exprLet "y" (.exprUnary .refOp 9 (.ident "x")) ]
          (some (.ident "y"))⟩ Enc.init
      = .error .returnLocalReferences
    ∧ encodeFnDecl 1 ⟨["x"], .mk [] (some (.exprUnary .refOp 3 (.ident "x")))⟩
        Enc.init
      = .error .returnLocalReferences :=
  ⟨c6_reference_tracking.2.1 3 [] [ .exprLet "x" (.numberLiteral (.integer 1))
      , .exprLet "y" (.exprUnary .refOp 9 (.ident "x")) ] "y" ⟨[], 0⟩
      ⟨⟨[], []⟩, ⟨[.integer 1, .ptr 0], 0, []⟩, [],
       ⟨[("y", ⟨1, [9]⟩), ("x", ⟨0, []⟩)], 2⟩, [], [9]⟩ ⟨1, [9]⟩
      (by decide) (by decide) (by decide) (by decide),
   c6_reference_tracking.1 0 ["x"] [] 3 "x" ⟨[("x", ⟨0, []⟩)], 1⟩
      { Enc.init with locals := ⟨[("x", ⟨0, []⟩)], 1⟩ }
      (by decide) (by decide) (by decide)⟩

/-- C4: a successful lowering of `while cond { body }` proceeds exactly as:
create labels `start` and `end`, push the loop record, commit `start` at the
current instruction position, lower `cond` with `Needs=Value`, emit
`jump_if_not end`, lower the body with `Needs=None`, emit `jump start`,
commit `end` right after, and push `Unit` if and only if the while expression
itself was lowered with `Needs=Value`. -/
theorem c4_while_lowering (fuel : Nat) (cond : Expr) (body : Block)
    (needsValue : Bool) (s₀ sF : Enc)
    (h : encodeExpr (fuel + 1) (.exprWhile cond body) needsValue s₀ = .ok sF) :
    ∃ s₁ sc sb s₄,
      ({ s₀ with
          asm := { s₀.asm with nextLabel := s₀.asm.nextLabel + 1 + 1 },
          loops := ⟨s₀.asm.nextLabel + 1, s₀.locals.varCount⟩ :: s₀.loops
        } : Enc).commitLabel s₀.asm.nextLabel = .ok s₁
      ∧ encodeExpr fuel cond true s₁ = .ok sc
      ∧ encodeBlock fuel body false (sc.push (.jumpIfNot (s₀.asm.nextLabel + 1)))
          = .ok sb
      ∧ (sb.push (.jump s₀.asm.nextLabel)).commitLabel (s₀.asm.nextLabel + 1)
          = .ok s₄
      ∧ sF.asm = (if needsValue then s₄.push .unit else s₄).asm
      ∧ s₁.asm.committed = (s₀.asm.nextLabel, s₀.asm.insts.length) :: s₀.asm.committed
      ∧ s₄.asm.committed
          = (s₀.asm.nextLabel + 1, sb.asm.insts.length + 1) :: sb.asm.committed := by
  rw [encodeExpr_succ] at h
  simp only [encodeExprStep, Enc.newLabel] at h
  split at h
  next er heq => exact Except.noConfusion h
  next s₁ heq1 =>
    split at h
    next er heq => exact Except.noConfusion h
    next sc heq2 =>
      split at h
      next er heq => exact Except.noConfusion h
      next sb heq3 =>
        split at h
        next er heq => exact Except.noConfusion h
        next s₄ heq4 =>
          split at h
          next heqL => exact Except.noConfusion h
          next lr rest heqL =>
            split at h
            next hcnt => exact Except.noConfusion h
            next hcnt =>
              have hF := Except.ok.inj h
              have hcom1 : s₁.asm.committed
                  = (s₀.asm.nextLabel, s₀.asm.insts.length) :: s₀.asm.committed := by
                have := heq1
                simp only [Enc.commitLabel] at this
                split at this
                · exact Except.noConfusion this
                · rw [← Except.ok.inj this]
              have hcom4 : s₄.asm.committed
                  = (s₀.asm.nextLabel + 1, sb.asm.insts.length + 1) :: sb.asm.committed := by
                have := heq4
                simp only [Enc.commitLabel] at this
                split at this
                · exact Except.noConfusion this
                · rw [← Except.ok.inj this]
                  simp [Enc.push]
              exact ⟨s₁, sc, sb, s₄, heq1, heq2, heq3, heq4, by rw [← hF], hcom1, hcom4⟩

/-- C4 witness: the theorem applied to `while true { }` with `Needs=None`. -/
theorem c4_while_lowering_witness :
    ∃ s₁ sc sb s₄,
      ({ Enc.init with
          asm := { Enc.init.asm with nextLabel := Enc.init.asm.nextLabel + 1 + 1 },
          loops := ⟨Enc.init.asm.nextLabel + 1, Enc.init.locals.varCount⟩
            :: Enc.init.loops
        } : Enc).commitLabel Enc.init.asm.nextLabel = .ok s₁
      ∧ encodeExpr 4 (.boolLiteral true) true s₁ = .ok sc
      ∧ encodeBlock 4 (.mk [] none) false
          (sc.push (.jumpIfNot (Enc.init.asm.nextLabel + 1))) = .ok sb
      ∧ (sb.push (.jump Enc.init.asm.nextLabel)).commitLabel
          (Enc.init.asm.nextLabel + 1) = .ok s₄
      ∧ (⟨⟨[], []⟩, ⟨[.bool true, .jumpIfNot 1, .jump 0], 2, [(1, 3), (0, 0)]⟩,
          [], ⟨[], 0⟩, [], []⟩ : Enc).asm
          = (if false then s₄.push .unit else s₄).asm
      ∧ s₁.asm.committed
          = (Enc.init.asm.nextLabel, Enc.init.asm.insts.length)
            :: Enc.init.asm.committed
      ∧ s₄.asm.committed
          = (Enc.init.asm.nextLabel + 1, sb.asm.insts.length + 1)
            :: sb.asm.committed :=
  c4_while_lowering 4 (.boolLiteral true) (.mk [] none) false Enc.init
    ⟨⟨[], []⟩, ⟨[.bool true, .jumpIfNot 1, .jump 0], 2, [(1, 3), (0, 0)]⟩,
     [], ⟨[], 0⟩, [], []⟩ (by decide)
